import Mathlib

/-!
Verification of the mirror-surface modelling code of `ts_tcs_wep_phosim`
(`wepPhoSim/MirrorSim.py` and `wepPhoSim/M2Sim.py`).

Numeric tables (numpy 2-D arrays) are embedded as lists of rows of rationals;
machine floating point is embedded as exact rational arithmetic.  Column `j` of
a table is read with `List.getD j 0`; numpy arrays are rectangular, so the
default value is never reached at the indices the code actually touches.
-/

namespace WepPhoSim

/-- A whitespace-delimited numeric table: a list of rows. -/
abbrev Table := List (List ℚ)

/-- Column `j` of a table (numpy `data[:, j]`). -/
def tableCol (data : Table) (j : ℕ) : List ℚ :=
  data.map (fun row => row.getD j 0)

/-- `M2Sim.getPrintthz`.  The source computes, per FEA row,
`zdz * cos(zAngle) + hdz * sin(zAngle)` and then subtracts
`zdz * cos(preCompElev) + hdz * sin(preCompElev)`, with `zdz = data[:, 2]` and
`hdz = data[:, 3]`.  Cosine and sine are transcendental, so the embedding takes
the cosine and sine of the two angles as input values; equal angles give equal
value pairs. -/
def getPrintthz (cosZ sinZ cosPre sinPre : ℚ) (data : Table) : List ℚ :=
  data.map (fun row =>
    (row.getD 2 0 * cosZ + row.getD 3 0 * sinZ)
      - (row.getD 2 0 * cosPre + row.getD 3 0 * sinPre))

/-- `M2Sim.getTempCorr`: per FEA row, `M2TzGrad * tzdz + M2TrGrad * trdz`
with `tzdz = data[:, 4]` and `trdz = data[:, 5]`. -/
def getTempCorr (M2TzGrad M2TrGrad : ℚ) (data : Table) : List ℚ :=
  data.map (fun row => M2TzGrad * row.getD 4 0 + M2TrGrad * row.getD 5 0)

/-- numpy `np.diff`: consecutive differences of a 1-D array. -/
def npDiff (l : List ℚ) : List ℚ :=
  List.zipWith (fun a b => b - a) l l.tail

/-- numpy `.max()`; 0 stands in for the empty array, on which numpy raises. -/
def npMax : List ℚ → ℚ
  | [] => 0
  | a :: t => t.foldl max a

/-- numpy `.min()`; 0 stands in for the empty array, on which numpy raises. -/
def npMin : List ℚ → ℚ
  | [] => 0
  | a :: t => t.foldl min a

/-- numpy `np.where(l <= q)[0]`: the indices of the entries that are at most
`q`, in increasing order. -/
def whereLe (q : ℚ) (l : List ℚ) : List ℕ :=
  (List.range l.length).filter (fun i => decide (l.getD i 0 ≤ q))

/-- A look-up table as loaded by `MirrorSim.getMirrorData`: `ruler` is the
first row `lut[0, :]` and `body` holds the remaining rows `lut[1:, :]`. -/
structure LUTTable where
  ruler : List ℚ
  body : List (List ℚ)

/-- Column `j` of the body of the table, `lut[1:, j]`. -/
def LUTTable.col (t : LUTTable) (j : ℕ) : List ℚ :=
  t.body.map (fun row => row.getD j 0)

/-- The failures `MirrorSim.getLUTforce` can raise: the explicit `ValueError`
for a ruler that is not strictly increasing (the spec's design name for it is
`MalformedTableError`), and numpy's `IndexError` when `np.where(...)[0]` is
empty. -/
inductive LUTError
  | malformed
  | indexErr
deriving DecidableEq

/-- `MirrorSim.getLUTforce` (MirrorSim.py lines 90-125), with the loaded LUT
passed in place of the file read.  The ruler check `np.any(stepList <= 0)`
comes first; then the clamp branches against `ruler.max()` and `ruler.min()`;
otherwise `p1 = np.where(ruler <= zangleInDeg)[0][-1]`,
`w2 = (zangleInDeg - ruler[p1]) / stepList[p1]`, `w1 = 1 - w2`, and the result
is `w1 * lut[1:, p1] + w2 * lut[1:, p1 + 1]`. -/
def getLUTforce (zangleInDeg : ℚ) (lut : LUTTable) : Except LUTError (List ℚ) :=
  let ruler := lut.ruler
  let stepList := npDiff ruler
  if stepList.any (fun s => decide (s ≤ 0)) then .error .malformed
  else if npMax ruler ≤ zangleInDeg then .ok (lut.col (ruler.length - 1))
  else if zangleInDeg ≤ npMin ruler then .ok (lut.col 0)
  else
    match (whereLe zangleInDeg ruler).getLast? with
    | none => .error .indexErr
    | some p1 =>
      let w2 := (zangleInDeg - ruler.getD p1 0) / stepList.getD p1 0
      let w1 := 1 - w2
      .ok (List.zipWith (fun a b => w1 * a + w2 * b) (lut.col p1) (lut.col (p1 + 1)))

/-- `NUM_X_PIXELS = nx + 4`: the grid is inflated by two extra nodes on each
side of the x axis. -/
def NUM_X_PIXELS (nx : ℕ) : ℕ := nx + 4

/-- `NUM_Y_PIXELS = ny + 4`. -/
def NUM_Y_PIXELS (ny : ℕ) : ℕ := ny + 4

/-- Spatial extension factor along x: `(NUM_X_PIXELS - 1) / (nx - 1)`. -/
def extFx (nx : ℕ) : ℚ := ((NUM_X_PIXELS nx : ℚ) - 1) / ((nx : ℚ) - 1)

/-- Spatial extension factor along y: `(NUM_Y_PIXELS - 1) / (ny - 1)`. -/
def extFy (ny : ℕ) : ℚ := ((NUM_Y_PIXELS ny : ℚ) - 1) / ((ny : ℚ) - 1)

/-- Pixel pitch along x: `outerRinMm * 2 * extFx / (NUM_X_PIXELS - 1)`. -/
def delx (outerRinMm : ℚ) (nx : ℕ) : ℚ :=
  outerRinMm * 2 * extFx nx / ((NUM_X_PIXELS nx : ℚ) - 1)

/-- Pixel pitch along y: `outerRinMm * 2 * extFy / (NUM_Y_PIXELS - 1)`. -/
def dely (outerRinMm : ℚ) (ny : ℕ) : ℚ :=
  outerRinMm * 2 * extFy ny / ((NUM_Y_PIXELS ny : ℚ) - 1)

/-- Minimum x of the grid: `-0.5 * (NUM_X_PIXELS - 1) * delx`. -/
def minx (outerRinMm : ℚ) (nx : ℕ) : ℚ :=
  -(1/2) * ((NUM_X_PIXELS nx : ℚ) - 1) * delx outerRinMm nx

/-- Minimum y of the grid: `-0.5 * (NUM_Y_PIXELS - 1) * dely`. -/
def miny (outerRinMm : ℚ) (ny : ℕ) : ℚ :=
  -(1/2) * ((NUM_Y_PIXELS ny : ℚ) - 1) * dely outerRinMm ny

/-- Finite-difference step `epsilon = 1e-4 * min(delx, dely)`. -/
def epsilon (outerRinMm : ℚ) (nx ny : ℕ) : ℚ :=
  (1/10000) * min (delx outerRinMm nx) (dely outerRinMm ny)

/-- The x position at inner-loop index `ii`, 0-based (the source writes
`minx + (ii - 1) * delx` with `ii` running from 1). -/
def xpos (outerRinMm : ℚ) (nx : ℕ) (ii : ℕ) : ℚ :=
  minx outerRinMm nx + ii * delx outerRinMm nx

/-- The y position at outer-loop index `jj`, 0-based, after the final sign
flip `y = -y` (the source comment: Zemax reads (-x, -y) first). -/
def ypos (outerRinMm : ℚ) (ny : ℕ) (jj : ℕ) : ℚ :=
  -(miny outerRinMm ny + jj * dely outerRinMm ny)

/-- The zero-fill test `(r < innerRinMm / extFr) or (r > outerRinMm * extFr)`
with `r = sqrt(x^2 + y^2)` and `extFr = sqrt(extFx * extFy)`, written in the
equivalent squared form so that it stays exact rational arithmetic; the
theorem `outsideAnnulus_of_sqrt` relates it to the square-root form the source
computes. -/
def outsideAnnulus (innerRinMm outerRinMm ex ey x y : ℚ) : Bool :=
  decide ((x ^ 2 + y ^ 2) * (ex * ey) < innerRinMm ^ 2)
    || decide (x ^ 2 + y ^ 2 > outerRinMm ^ 2 * (ex * ey))

/-- One 4-tuple `(z, dx, dy, dxdy)` of the grid residue map, at outer-loop
index `jj` and inner-loop index `ii`.  `Ff` is the radial-basis interpolant
fitted through the scattered surface data; outside the validity annulus the
tuple is zero, otherwise the interpolant value and its central finite
differences with step `epsilon`. -/
def gridNode (Ff : ℚ → ℚ → ℚ) (innerRinMm outerRinMm : ℚ) (nx ny : ℕ)
    (jj ii : ℕ) : ℚ × ℚ × ℚ × ℚ :=
  let x := xpos outerRinMm nx ii
  let y := ypos outerRinMm ny jj
  if outsideAnnulus innerRinMm outerRinMm (extFx nx) (extFy ny) x y then
    (0, 0, 0, 0)
  else
    let eps := epsilon outerRinMm nx ny
    let z := Ff x y
    let dx := (Ff (x + eps) y - Ff (x - eps) y) / (2 * eps)
    let dy := (Ff x (y + eps) - Ff x (y - eps)) / (2 * eps)
    let tem3 := (Ff (x + eps) (y + eps) - Ff (x - eps) (y + eps)) / (2 * eps)
    let tem4 := (Ff (x + eps) (y - eps) - Ff (x - eps) (y - eps)) / (2 * eps)
    (z, dx, dy, (tem3 - tem4) / (2 * eps))

/-- One line of the residue-map text: the header line `"%d %d %.9E %.9E"`
carrying the pixel counts and pitches, or a node line `"%.9E %.9E %.9E %.9E"`
carrying `(z, dx, dy, dxdy)`.  The embedding keeps the field values; the
decimal rendering of the floats is not modelled. -/
inductive ZemaxLine
  | header (nxPix nyPix : ℕ) (dx dy : ℚ)
  | node (z dx dy dxdy : ℚ)
deriving DecidableEq

/-- The content built by `MirrorSim.__gridSampInMnInZemax` (MirrorSim.py lines
150-227): the header line, then the doubly nested loop
`for jj in range(1, NUM_X_PIXELS + 1): for ii in range(1, NUM_Y_PIXELS + 1)`
emitting one node line per iteration. -/
def gridContent (Ff : ℚ → ℚ → ℚ) (innerRinMm outerRinMm : ℚ) (nx ny : ℕ) :
    List ZemaxLine :=
  ZemaxLine.header (NUM_X_PIXELS nx) (NUM_Y_PIXELS ny)
      (delx outerRinMm nx) (dely outerRinMm ny)
    :: ((List.range (NUM_X_PIXELS nx)).map (fun jj =>
          (List.range (NUM_Y_PIXELS ny)).map (fun ii =>
            let t := gridNode Ff innerRinMm outerRinMm nx ny jj ii
            ZemaxLine.node t.1 t.2.1 t.2.2.1 t.2.2.2))).flatten

/-- `MirrorSim.__gridSampInMnInZemax` together with its `resFile` handling
(MirrorSim.py lines 229-235): the content is fully assembled first; when
`resFile` is a path the function then performs exactly one write of the whole
content to that path, and none when `resFile` is `None`.  The second component
records the write effects as (path, written content) pairs. -/
def gridSampInMnInZemax (Ff : ℚ → ℚ → ℚ) (innerRinMm outerRinMm : ℚ)
    (nx ny : ℕ) (resFile : Option String) :
    List ZemaxLine × List (String × List ZemaxLine) :=
  let content := gridContent Ff innerRinMm outerRinMm nx ny
  (content,
    match resFile with
    | none => []
    | some p => [(p, content)])

/-- The x coordinates enumerated by the resampler: the inner loop runs over
`range NUM_Y_PIXELS` but advances x with pitch `delx`. -/
def xSamples (outerRinMm : ℚ) (nx ny : ℕ) : List ℚ :=
  (List.range (NUM_Y_PIXELS ny)).map (fun ii => xpos outerRinMm nx ii)

/-- The y coordinates enumerated by the resampler: the outer loop runs over
`range NUM_X_PIXELS` but advances y with pitch `dely`. -/
def ySamples (outerRinMm : ℚ) (nx ny : ℕ) : List ℚ :=
  (List.range (NUM_X_PIXELS nx)).map (fun jj => ypos outerRinMm ny jj)

/-- Modelled from the spec: `ZernikeEval` of `lsst.ts.wep.cwfs.Tool` is not
part of this repository; per the spec it evaluates an aberration-coefficient
list over a fixed basis family `B` at a point, as the linear combination of
the first `zc.length` basis functions. -/
def ZernikeEval (B : ℕ → ℚ × ℚ → ℚ) (zc : List ℚ) (p : ℚ × ℚ) : ℚ :=
  ((List.range zc.length).map (fun j => zc.getD j 0 * B j p)).sum

/-- The fit residual of `MirrorSim.__getMirrorResInNormalizedCoor`
(MirrorSim.py line 331): `surf - ZernikeEval(zc, x, y)` elementwise over the
sample points. -/
def fitResidual (B : ℕ → ℚ × ℚ → ℚ) (surf : List ℚ) (pts : List (ℚ × ℚ))
    (zc : List ℚ) : List ℚ :=
  List.zipWith (fun s p => s - ZernikeEval B zc p) surf pts

/-- The energy (sum of squares) of the fit residual. -/
def resEnergy (B : ℕ → ℚ × ℚ → ℚ) (surf : List ℚ) (pts : List (ℚ × ℚ))
    (zc : List ℚ) : ℚ :=
  ((fitResidual B surf pts zc).map (fun r => r ^ 2)).sum

/-- Modelled from the spec: `ZernikeFit` of `lsst.ts.wep.cwfs.Tool` is not
part of this repository; per the spec it returns the least-squares projection
of the field onto the first `numTerms` basis functions.  This predicate
states that `zc` is such a fit: it has `numTerms` coefficients and its
residual energy is minimal among all coefficient lists of that length. -/
def IsZernikeFit (B : ℕ → ℚ × ℚ → ℚ) (surf : List ℚ) (pts : List (ℚ × ℚ))
    (numTerms : ℕ) (zc : List ℚ) : Prop :=
  zc.length = numTerms ∧
    ∀ c : List ℚ, c.length = numTerms →
      resEnergy B surf pts zc ≤ resEnergy B surf pts c

/-- The numeric stages `M2Sim.getMirrorResInMmInZemax` executes, in source
order: the bending-mode data load `getMirrorData(gridFileName)`, the
`M2CRS2ZCRS` coordinate transform, and the aberration fit performed by
`MirrorSim.__getMirrorResInNormalizedCoor`. -/
inductive FitStage
  | loadData
  | coordTransform
  | zkFit
deriving DecidableEq

/-- The configuration failure the spec assigns to an invalid fit order. -/
inductive FitError
  | configuration
deriving DecidableEq

/-- Modelled from the spec: the fit-order validation of the aberration-basis
family (the fitting code `ZernikeFit` of `lsst.ts.wep.cwfs.Tool` is not part
of this repository).  A requested order that is non-positive or exceeds the
supported maximum `maxTerms` of the basis family is a configuration error. -/
def numTermsValid (numTerms maxTerms : ℤ) : Bool :=
  decide (0 < numTerms) && decide (numTerms ≤ maxTerms)

/-- Effect trace of `M2Sim.getMirrorResInMmInZemax` (M2Sim.py lines 108-151)
with respect to `numTerms`: the source runs `getMirrorData` and `M2CRS2ZCRS`
unconditionally before `numTerms` is ever consulted; only then is the fit
attempted, which (per the spec model above) rejects an invalid order.  The
result lists the stages completed in order, with the configuration error if
one is raised. -/
def getMirrorResInMmInZemax (numTerms maxTerms : ℤ) :
    List FitStage × Option FitError :=
  if numTermsValid numTerms maxTerms then
    ([.loadData, .coordTransform, .zkFit], none)
  else
    ([.loadData, .coordTransform], some .configuration)

end WepPhoSim

namespace WepPhoSim

/-- C4: with the pre-compensation elevation angle equal to the zenith angle,
`getPrintthz` returns the all-zero vector: the pose term and the
pre-compensation term cancel exactly, whatever the FEA table holds. -/
theorem getPrintthz_precomp_cancel (c s : ℚ) (data : Table) :
    getPrintthz c s c s data = List.replicate data.length 0 := by
  induction data with
  | nil => rfl
  | cons row rows ih =>
      simp only [getPrintthz, List.map_cons, List.length_cons, List.replicate_succ,
        List.cons.injEq] at *
      exact ⟨by ring, ih⟩

/-- C5: `getTempCorr` is the elementwise linear superposition of the axial and
radial response columns with the two gradients as weights, with no saturation
or clamping; zero gradients give the all-zero vector. -/
theorem getTempCorr_linear (tz tr : ℚ) (data : Table) :
    getTempCorr tz tr data =
      List.zipWith (fun a b => tz * a + tr * b) (tableCol data 4) (tableCol data 5)
    ∧ getTempCorr 0 0 data = List.replicate data.length 0 := by
  constructor
  · induction data with
    | nil => rfl
    | cons row rows ih =>
        simp only [getTempCorr, tableCol, List.map_cons, List.zipWith_cons_cons,
          List.cons.injEq] at *
        exact ⟨trivial, ih⟩
  · induction data with
    | nil => rfl
    | cons row rows ih =>
        simp only [getTempCorr, List.map_cons, List.length_cons,
          List.replicate_succ, List.cons.injEq] at *
        exact ⟨by ring, ih⟩

theorem le_foldl_max (t : List ℚ) : ∀ {a b : ℚ}, a ≤ b → a ≤ t.foldl max b := by
  induction t with
  | nil => intro a b h; exact h
  | cons c t ih => intro a b h; exact ih (le_trans h (le_max_left b c))

theorem mem_le_foldl_max (t : List ℚ) : ∀ (b : ℚ), ∀ x ∈ t, x ≤ t.foldl max b := by
  induction t with
  | nil => intro b x hx; cases hx
  | cons c t ih =>
      intro b x hx
      rcases List.mem_cons.mp hx with rfl | hx
      · exact le_foldl_max t (le_max_right b x)
      · exact ih (max b c) x hx

theorem mem_le_npMax (l : List ℚ) (x : ℚ) (hx : x ∈ l) : x ≤ npMax l := by
  cases l with
  | nil => cases hx
  | cons a t =>
      rcases List.mem_cons.mp hx with rfl | hx
      · exact le_foldl_max t le_rfl
      · exact mem_le_foldl_max t a x hx

theorem foldl_max_mem (t : List ℚ) : ∀ (b : ℚ), t.foldl max b ∈ b :: t := by
  induction t with
  | nil => intro b; exact List.mem_singleton.mpr rfl
  | cons c t ih =>
      intro b
      rcases List.mem_cons.mp (ih (max b c)) with h | h
      · rcases max_choice b c with hm | hm
        · exact List.mem_cons.mpr (Or.inl (by rw [List.foldl_cons, h, hm]))
        · refine List.mem_cons.mpr (Or.inr (List.mem_cons.mpr (Or.inl ?_)))
          rw [List.foldl_cons, h, hm]
      · exact List.mem_cons.mpr (Or.inr (List.mem_cons.mpr (Or.inr h)))

theorem npMax_mem (l : List ℚ) (hne : l ≠ []) : npMax l ∈ l := by
  cases l with
  | nil => exact absurd rfl hne
  | cons a t => exact foldl_max_mem t a

theorem foldl_min_le (t : List ℚ) : ∀ {a b : ℚ}, b ≤ a → t.foldl min b ≤ a := by
  induction t with
  | nil => intro a b h; exact h
  | cons c t ih => intro a b h; exact ih (le_trans (min_le_left b c) h)

theorem foldl_min_le_mem (t : List ℚ) : ∀ (b : ℚ), ∀ x ∈ t, t.foldl min b ≤ x := by
  induction t with
  | nil => intro b x hx; cases hx
  | cons c t ih =>
      intro b x hx
      rcases List.mem_cons.mp hx with rfl | hx
      · exact foldl_min_le t (min_le_right b x)
      · exact ih (min b c) x hx

theorem npMin_le_mem (l : List ℚ) (x : ℚ) (hx : x ∈ l) : npMin l ≤ x := by
  cases l with
  | nil => cases hx
  | cons a t =>
      rcases List.mem_cons.mp hx with rfl | hx
      · exact foldl_min_le t le_rfl
      · exact foldl_min_le_mem t a x hx

theorem foldl_min_of_le (t : List ℚ) : ∀ (b : ℚ), (∀ x ∈ t, b ≤ x) → t.foldl min b = b := by
  induction t with
  | nil => intro b _; rfl
  | cons c t ih =>
      intro b h
      rw [List.foldl_cons, min_eq_left (h c (List.mem_cons_self c t))]
      exact ih b (fun x hx => h x (List.mem_cons.mpr (Or.inr hx)))

theorem sorted_getD_lt (l : List ℚ) (h : l.Chain' (· < ·)) (i j : ℕ)
    (hij : i < j) (hj : j < l.length) : l.getD i 0 < l.getD j 0 := by
  have hp := List.chain'_iff_pairwise.mp h
  have hg := List.pairwise_iff_get.mp hp ⟨i, lt_trans hij hj⟩ ⟨j, hj⟩ (Fin.mk_lt_mk.mpr hij)
  rw [List.getD_eq_getElem l 0 (lt_trans hij hj), List.getD_eq_getElem l 0 hj]
  simpa using hg

theorem sorted_npMin_head (a : ℚ) (t : List ℚ) (h : (a :: t).Chain' (· < ·)) :
    npMin (a :: t) = a := by
  have hp := List.chain'_iff_pairwise.mp h
  exact foldl_min_of_le t a (fun x hx => le_of_lt ((List.pairwise_cons.mp hp).1 x hx))

theorem npDiff_length (l : List ℚ) : (npDiff l).length = l.length - 1 := by
  simp only [npDiff, List.length_zipWith, List.length_tail]
  omega

theorem npDiff_getD (l : List ℚ) (i : ℕ) (h : i + 1 < l.length) :
    (npDiff l).getD i 0 = l.getD (i + 1) 0 - l.getD i 0 := by
  have hlen : i < (npDiff l).length := by rw [npDiff_length]; omega
  rw [List.getD_eq_getElem _ 0 hlen, List.getD_eq_getElem l 0 h,
    List.getD_eq_getElem l 0 (by omega : i < l.length)]
  simp [npDiff, List.getElem_zipWith, List.getElem_tail]

theorem sorted_npDiff_pos (l : List ℚ) (h : l.Chain' (· < ·)) :
    ∀ s ∈ npDiff l, 0 < s := by
  intro s hs
  obtain ⟨i, hi, rfl⟩ := List.mem_iff_getElem.mp hs
  have hi' : i + 1 < l.length := by have := npDiff_length l; omega
  have heq : (npDiff l)[i] = l.getD (i + 1) 0 - l.getD i 0 := by
    rw [← List.getD_eq_getElem _ 0 hi, npDiff_getD l i hi']
  rw [heq]
  have := sorted_getD_lt l h i (i + 1) (by omega) hi'
  linarith

theorem sorted_any_nonpos (l : List ℚ) (h : l.Chain' (· < ·)) :
    (npDiff l).any (fun s => decide (s ≤ 0)) = false := by
  rw [List.any_eq_false]
  intro s hs
  simpa using not_le.mpr (sorted_npDiff_pos l h s hs)

theorem mem_whereLe (q : ℚ) (l : List ℚ) (i : ℕ) :
    i ∈ whereLe q l ↔ i < l.length ∧ l.getD i 0 ≤ q := by
  simp [whereLe, List.mem_filter, List.mem_range]

theorem whereLe_pairwise (q : ℚ) (l : List ℚ) : (whereLe q l).Pairwise (· < ·) :=
  List.Pairwise.filter _ (List.pairwise_lt_range l.length)

theorem getLast?_pairwise_ub (L : List ℕ) (hp : L.Pairwise (· < ·)) (a : ℕ)
    (ha : L.getLast? = some a) : ∀ b ∈ L, b ≤ a := by
  intro b hb
  have hne : L ≠ [] := by
    intro h
    rw [h] at ha
    cases ha
  have hlen : 0 < L.length := List.length_pos.mpr hne
  rw [List.getLast?_eq_getElem? L, List.getElem?_eq_getElem (by omega)] at ha
  have ha' : L[L.length - 1] = a := Option.some.inj ha
  obtain ⟨⟨i, hi⟩, rfl⟩ := List.mem_iff_get.mp hb
  rcases Nat.lt_or_ge i (L.length - 1) with hlt | hge
  · have hg := List.pairwise_iff_get.mp hp ⟨i, hi⟩ ⟨L.length - 1, by omega⟩
      (Fin.mk_lt_mk.mpr hlt)
    simp only [List.get_eq_getElem] at hg ⊢
    rw [← ha']
    exact le_of_lt hg
  · have hieq : i = L.length - 1 := by omega
    simp only [List.get_eq_getElem, hieq, ha']
    exact le_rfl

theorem getLast?_eq_of_ub (L : List ℕ) (hp : L.Pairwise (· < ·)) (a : ℕ)
    (haL : a ∈ L) (hub : ∀ b ∈ L, b ≤ a) : L.getLast? = some a := by
  have hne : L ≠ [] := List.ne_nil_of_mem haL
  cases hc : L.getLast? with
  | none => exact absurd (List.getLast?_eq_none_iff.mp hc) hne
  | some c =>
      have h1 : c ≤ a := hub c (List.mem_of_getLast?_eq_some hc)
      have h2 : a ≤ c := getLast?_pairwise_ub L hp c hc a haL
      rw [Nat.le_antisymm h1 h2]

theorem whereLe_getLast_interior (l : List ℚ) (q : ℚ)
    (hinc : l.Chain' (· < ·)) (hne : l ≠ [])
    (hmin : npMin l < q) (hmax : q < npMax l) :
    ∃ p1, (whereLe q l).getLast? = some p1 ∧ p1 + 1 < l.length
      ∧ l.getD p1 0 ≤ q ∧ q < l.getD (p1 + 1) 0 ∧ ∀ j ∈ whereLe q l, j ≤ p1 := by
  obtain ⟨a, t, rfl⟩ : ∃ a t, l = a :: t := by
    cases l with
    | nil => exact absurd rfl hne
    | cons a t => exact ⟨a, t, rfl⟩
  have hhead : (a :: t).getD 0 0 ≤ q := by
    have hh : npMin (a :: t) = a := sorted_npMin_head a t hinc
    simp only [List.getD_cons_zero]
    rw [hh] at hmin
    exact le_of_lt hmin
  have h0 : 0 ∈ whereLe q (a :: t) :=
    (mem_whereLe q (a :: t) 0).mpr ⟨by simp, hhead⟩
  have hWne : whereLe q (a :: t) ≠ [] := List.ne_nil_of_mem h0
  cases hc : (whereLe q (a :: t)).getLast? with
  | none => exact absurd (List.getLast?_eq_none_iff.mp hc) hWne
  | some p1 =>
      have hub := getLast?_pairwise_ub _ (whereLe_pairwise q (a :: t)) p1 hc
      have hp1mem := List.mem_of_getLast?_eq_some hc
      obtain ⟨hp1len, hp1le⟩ := (mem_whereLe q (a :: t) p1).mp hp1mem
      obtain ⟨j, hj, hjval⟩ := List.mem_iff_getElem.mp
        (npMax_mem (a :: t) (by simp))
      have hjq : q < (a :: t).getD j 0 := by
        rw [List.getD_eq_getElem _ 0 hj, hjval]
        exact hmax
      have hp1j : p1 < j := by
        by_contra hcon
        push_neg at hcon
        rcases Nat.lt_or_ge j p1 with hlt | hge
        · have := sorted_getD_lt (a :: t) hinc j p1 hlt hp1len
          linarith
        · have hjeq : j = p1 := by omega
          rw [hjeq] at hjq
          linarith
      have hp1s : p1 + 1 < (a :: t).length := by omega
      refine ⟨p1, rfl, hp1s, hp1le, ?_, hub⟩
      by_contra hcon
      push_neg at hcon
      have hmem1 : p1 + 1 ∈ whereLe q (a :: t) :=
        (mem_whereLe q (a :: t) (p1 + 1)).mpr ⟨hp1s, hcon⟩
      have := hub _ hmem1
      omega

theorem whereLe_getLast_at_node (l : List ℚ) (hinc : l.Chain' (· < ·))
    (i : ℕ) (hi : i < l.length) :
    (whereLe (l.getD i 0) l).getLast? = some i := by
  apply getLast?_eq_of_ub _ (whereLe_pairwise _ l) i
    ((mem_whereLe _ l i).mpr ⟨hi, le_rfl⟩)
  intro j hj
  obtain ⟨hjlen, hjle⟩ := (mem_whereLe _ l j).mp hj
  by_contra hcon
  push_neg at hcon
  have := sorted_getD_lt l hinc i j hcon hjlen
  linarith

theorem col_length (t : LUTTable) (j : ℕ) : (t.col j).length = t.body.length := by
  simp [LUTTable.col]

theorem zipWith_left_proj (c d : List ℚ) (h : c.length ≤ d.length) :
    List.zipWith (fun a b => (1 - 0) * a + 0 * b) c d = c := by
  induction c generalizing d with
  | nil => rfl
  | cons a c ih =>
      cases d with
      | nil => simp at h
      | cons b d =>
          simp only [List.zipWith_cons_cons, List.length_cons, List.cons.injEq] at h ⊢
          exact ⟨by ring, ih d (by omega)⟩

/-- C1: for a LUT whose ruler is strictly increasing, `getLUTforce` clamps to
the last column at or above the ruler maximum, clamps to the first column at
or below the ruler minimum, and otherwise returns the convex combination
`(1 - w) * col p1 + w * col (p1 + 1)` elementwise, with `p1` the last ruler
index whose entry is at most the query and
`w = (q - ruler[p1]) / (ruler[p1 + 1] - ruler[p1])`; a query equal to
`ruler[i]` returns column `i` unchanged. -/
theorem getLUTforce_spec (lut : LUTTable) (q : ℚ)
    (hinc : lut.ruler.Chain' (· < ·)) (hne : lut.ruler ≠ []) :
    (npMax lut.ruler ≤ q →
        getLUTforce q lut = .ok (lut.col (lut.ruler.length - 1)))
  ∧ (q ≤ npMin lut.ruler → getLUTforce q lut = .ok (lut.col 0))
  ∧ (npMin lut.ruler < q → q < npMax lut.ruler →
      ∃ p1, (whereLe q lut.ruler).getLast? = some p1
        ∧ p1 + 1 < lut.ruler.length
        ∧ lut.ruler.getD p1 0 ≤ q ∧ q < lut.ruler.getD (p1 + 1) 0
        ∧ (∀ j ∈ whereLe q lut.ruler, j ≤ p1)
        ∧ getLUTforce q lut =
            .ok (List.zipWith
              (fun a b =>
                (1 - (q - lut.ruler.getD p1 0)
                    / (lut.ruler.getD (p1 + 1) 0 - lut.ruler.getD p1 0)) * a
                  + (q - lut.ruler.getD p1 0)
                    / (lut.ruler.getD (p1 + 1) 0 - lut.ruler.getD p1 0) * b)
              (lut.col p1) (lut.col (p1 + 1))))
  ∧ (∀ i < lut.ruler.length, q = lut.ruler.getD i 0 →
      getLUTforce q lut = .ok (lut.col i)) := by
  have hany := sorted_any_nonpos lut.ruler hinc
  refine ⟨?_, ?_, ?_, ?_⟩
  · intro hq
    simp [getLUTforce, hany, hq]
  · intro hq
    by_cases h1 : npMax lut.ruler ≤ q
    · have hlen : lut.ruler.length = 1 := by
        by_contra hcon
        have hlen2 : 2 ≤ lut.ruler.length := by
          have := List.length_pos.mpr hne
          omega
        have h01 := sorted_getD_lt lut.ruler hinc 0 1 (by omega) (by omega)
        have hm0 : npMin lut.ruler ≤ lut.ruler.getD 0 0 := by
          apply npMin_le_mem
          rw [List.getD_eq_getElem _ 0 (by omega : 0 < lut.ruler.length)]
          exact List.getElem_mem _
        have hm1 : lut.ruler.getD 1 0 ≤ npMax lut.ruler := by
          apply mem_le_npMax
          rw [List.getD_eq_getElem _ 0 (by omega : 1 < lut.ruler.length)]
          exact List.getElem_mem _
        linarith
      simp [getLUTforce, hany, h1, hlen]
    · simp [getLUTforce, hany, h1, hq]
  · intro hmin hmax
    obtain ⟨p1, hc, hp1s, hp1le, hp1gt, hub⟩ :=
      whereLe_getLast_interior lut.ruler q hinc hne hmin hmax
    have h1 : ¬ npMax lut.ruler ≤ q := not_le.mpr hmax
    have h2 : ¬ q ≤ npMin lut.ruler := not_le.mpr hmin
    refine ⟨p1, hc, hp1s, hp1le, hp1gt, hub, ?_⟩
    have hstep : (npDiff lut.ruler)[p1]?.getD 0 =
        lut.ruler[p1 + 1]?.getD 0 - lut.ruler[p1]?.getD 0 := by
      simpa only [List.getD_eq_getElem?_getD] using npDiff_getD lut.ruler p1 hp1s
    simp [getLUTforce, hany, h1, h2, hc, hstep]
  · intro i hi hq
    by_cases h1 : npMax lut.ruler ≤ q
    · have hieq : i = lut.ruler.length - 1 := by
        by_contra hcon
        have hilt : i < lut.ruler.length - 1 := by omega
        have hlast := sorted_getD_lt lut.ruler hinc i (lut.ruler.length - 1) hilt
          (by omega)
        have hmem : lut.ruler.getD (lut.ruler.length - 1) 0 ≤ npMax lut.ruler := by
          apply mem_le_npMax
          rw [List.getD_eq_getElem _ 0
            (by omega : lut.ruler.length - 1 < lut.ruler.length)]
          exact List.getElem_mem _
        rw [hq] at h1
        linarith
      rw [hieq]
      simp [getLUTforce, hany, h1]
    · by_cases h2 : q ≤ npMin lut.ruler
      · have hieq : i = 0 := by
          by_contra hcon
          have h0i := sorted_getD_lt lut.ruler hinc 0 i (by omega) hi
          have hm0 : npMin lut.ruler ≤ lut.ruler.getD 0 0 := by
            apply npMin_le_mem
            rw [List.getD_eq_getElem _ 0 (by omega : 0 < lut.ruler.length)]
            exact List.getElem_mem _
          rw [hq] at h2
          linarith
        rw [hieq]
        simp [getLUTforce, hany, h1, h2]
      · have hc : (whereLe q lut.ruler).getLast? = some i := by
          rw [hq]
          exact whereLe_getLast_at_node lut.ruler hinc i hi
        have hw : q - lut.ruler.getD i 0 = 0 := by rw [hq]; ring
        have hcol : (lut.col i).length ≤ (lut.col (i + 1)).length := by
          rw [col_length, col_length]
        simp only [getLUTforce, hany, Bool.false_eq_true, if_false, h1, if_false,
          h2, if_false, hc, hw, zero_div]
        rw [zipWith_left_proj _ _ hcol]

/-- Witness for C1 at a concrete table and query: clamp-high at `q = 3` on the
ruler `[0, 1, 2]`. -/
theorem getLUTforce_spec_witness :
    getLUTforce 3 ⟨[0, 1, 2], [[10, 20, 30]]⟩ =
      .ok (LUTTable.col ⟨[0, 1, 2], [[10, 20, 30]]⟩ 2) :=
  (getLUTforce_spec ⟨[0, 1, 2], [[10, 20, 30]]⟩ 3
    (by norm_num [List.chain'_cons]) (by simp)).1
    (by norm_num [npMax, List.foldl, max_def])

/-- C6: a ruler with a non-positive consecutive difference makes `getLUTforce`
fail with the malformed-table error for every query, including queries that
would otherwise be clamped: the monotonicity check runs before any clamping or
interpolation. -/
theorem getLUTforce_malformed (lut : LUTTable) (q : ℚ)
    (h : ∃ s ∈ npDiff lut.ruler, s ≤ 0) :
    getLUTforce q lut = .error .malformed := by
  have hany : (npDiff lut.ruler).any (fun s => decide (s ≤ 0)) = true := by
    rw [List.any_eq_true]
    obtain ⟨s, hs, hle⟩ := h
    exact ⟨s, hs, decide_eq_true hle⟩
  simp [getLUTforce, hany]

/-- Witness for C6: a flat ruler `[1, 1]` with an out-of-range query `5`. -/
theorem getLUTforce_malformed_witness :
    getLUTforce 5 ⟨[1, 1], [[3, 4]]⟩ = .error .malformed :=
  getLUTforce_malformed ⟨[1, 1], [[3, 4]]⟩ 5 (by norm_num [npDiff, List.zipWith])

theorem extFx_pos (nx : ℕ) (h : 2 ≤ nx) : 0 < extFx nx := by
  have h2 : (2:ℚ) ≤ (nx:ℚ) := by exact_mod_cast h
  have h1 : (0:ℚ) < (nx:ℚ) - 1 := by linarith
  have h3 : (0:ℚ) < (NUM_X_PIXELS nx : ℚ) - 1 := by
    simp only [NUM_X_PIXELS]
    push_cast
    linarith
  exact div_pos h3 h1

theorem extFy_pos (ny : ℕ) (h : 2 ≤ ny) : 0 < extFy ny := by
  have h2 : (2:ℚ) ≤ (ny:ℚ) := by exact_mod_cast h
  have h1 : (0:ℚ) < (ny:ℚ) - 1 := by linarith
  have h3 : (0:ℚ) < (NUM_Y_PIXELS ny : ℚ) - 1 := by
    simp only [NUM_Y_PIXELS]
    push_cast
    linarith
  exact div_pos h3 h1

theorem delx_pos (R : ℚ) (nx : ℕ) (hR : 0 < R) (h : 2 ≤ nx) : 0 < delx R nx := by
  have hex := extFx_pos nx h
  have h2 : (2:ℚ) ≤ (nx:ℚ) := by exact_mod_cast h
  have h3 : (0:ℚ) < (NUM_X_PIXELS nx : ℚ) - 1 := by
    simp only [NUM_X_PIXELS]
    push_cast
    linarith
  exact div_pos (mul_pos (mul_pos hR two_pos) hex) h3

/-- The squared-form zero-fill test holds whenever the square-root form the
source computes holds: `sqrt(x^2 + y^2) < Ri / sqrt(ex * ey)` or
`sqrt(x^2 + y^2) > R * sqrt(ex * ey)`, for nonnegative outer radius and
positive extension factors. -/
theorem outsideAnnulus_of_sqrt (Ri R ex ey x y : ℚ) (hR : 0 ≤ R)
    (hex : 0 < ex) (hey : 0 < ey)
    (h : Real.sqrt ((x:ℝ) ^ 2 + (y:ℝ) ^ 2)
          < (Ri:ℝ) / Real.sqrt ((ex:ℝ) * (ey:ℝ))
        ∨ Real.sqrt ((x:ℝ) ^ 2 + (y:ℝ) ^ 2)
          > (R:ℝ) * Real.sqrt ((ex:ℝ) * (ey:ℝ))) :
    outsideAnnulus Ri R ex ey x y = true := by
  have hs : (0:ℝ) ≤ (x:ℝ) ^ 2 + (y:ℝ) ^ 2 := by positivity
  have he : (0:ℝ) < (ex:ℝ) * (ey:ℝ) := by
    have hex' : (0:ℝ) < (ex:ℝ) := by exact_mod_cast hex
    have hey' : (0:ℝ) < (ey:ℝ) := by exact_mod_cast hey
    exact mul_pos hex' hey'
  have hse : (0:ℝ) < Real.sqrt ((ex:ℝ) * (ey:ℝ)) := Real.sqrt_pos.mpr he
  have hrs : Real.sqrt ((x:ℝ) ^ 2 + (y:ℝ) ^ 2) * Real.sqrt ((x:ℝ) ^ 2 + (y:ℝ) ^ 2)
      = (x:ℝ) ^ 2 + (y:ℝ) ^ 2 := Real.mul_self_sqrt hs
  have hse2 : Real.sqrt ((ex:ℝ) * (ey:ℝ)) * Real.sqrt ((ex:ℝ) * (ey:ℝ))
      = (ex:ℝ) * (ey:ℝ) := Real.mul_self_sqrt he.le
  simp only [outsideAnnulus, Bool.or_eq_true, decide_eq_true_eq]
  rcases h with hin | hout
  · left
    have h1 : Real.sqrt ((x:ℝ) ^ 2 + (y:ℝ) ^ 2) * Real.sqrt ((ex:ℝ) * (ey:ℝ))
        < (Ri:ℝ) := (lt_div_iff₀ hse).mp hin
    have h2 := mul_self_lt_mul_self (by positivity) h1
    have h3 : ((x:ℝ) ^ 2 + (y:ℝ) ^ 2) * ((ex:ℝ) * (ey:ℝ)) < (Ri:ℝ) * (Ri:ℝ) := by
      calc ((x:ℝ) ^ 2 + (y:ℝ) ^ 2) * ((ex:ℝ) * (ey:ℝ))
          = (Real.sqrt ((x:ℝ) ^ 2 + (y:ℝ) ^ 2) * Real.sqrt ((ex:ℝ) * (ey:ℝ)))
            * (Real.sqrt ((x:ℝ) ^ 2 + (y:ℝ) ^ 2) * Real.sqrt ((ex:ℝ) * (ey:ℝ))) := by
            rw [show (Real.sqrt ((x:ℝ) ^ 2 + (y:ℝ) ^ 2) * Real.sqrt ((ex:ℝ) * (ey:ℝ)))
                * (Real.sqrt ((x:ℝ) ^ 2 + (y:ℝ) ^ 2) * Real.sqrt ((ex:ℝ) * (ey:ℝ)))
                = (Real.sqrt ((x:ℝ) ^ 2 + (y:ℝ) ^ 2) * Real.sqrt ((x:ℝ) ^ 2 + (y:ℝ) ^ 2))
                  * (Real.sqrt ((ex:ℝ) * (ey:ℝ)) * Real.sqrt ((ex:ℝ) * (ey:ℝ))) from by ring,
              hrs, hse2]
        _ < (Ri:ℝ) * (Ri:ℝ) := h2
    have h4 : ((x ^ 2 + y ^ 2) * (ex * ey) : ℚ) < Ri ^ 2 := by
      have : (((x ^ 2 + y ^ 2) * (ex * ey) : ℚ) : ℝ) < ((Ri ^ 2 : ℚ) : ℝ) := by
        push_cast
        calc ((x:ℝ) ^ 2 + (y:ℝ) ^ 2) * ((ex:ℝ) * (ey:ℝ))
            < (Ri:ℝ) * (Ri:ℝ) := h3
          _ = (Ri:ℝ) ^ 2 := by ring
      exact_mod_cast this
    exact h4
  · right
    have hRse : (0:ℝ) ≤ (R:ℝ) * Real.sqrt ((ex:ℝ) * (ey:ℝ)) := by
      have hR' : (0:ℝ) ≤ (R:ℝ) := by exact_mod_cast hR
      positivity
    have h2 := mul_self_lt_mul_self hRse hout
    have h3 : (R:ℝ) * (R:ℝ) * ((ex:ℝ) * (ey:ℝ)) < (x:ℝ) ^ 2 + (y:ℝ) ^ 2 := by
      calc (R:ℝ) * (R:ℝ) * ((ex:ℝ) * (ey:ℝ))
          = ((R:ℝ) * Real.sqrt ((ex:ℝ) * (ey:ℝ)))
            * ((R:ℝ) * Real.sqrt ((ex:ℝ) * (ey:ℝ))) := by
            rw [show ((R:ℝ) * Real.sqrt ((ex:ℝ) * (ey:ℝ)))
                * ((R:ℝ) * Real.sqrt ((ex:ℝ) * (ey:ℝ)))
                = (R:ℝ) * (R:ℝ) * (Real.sqrt ((ex:ℝ) * (ey:ℝ))
                  * Real.sqrt ((ex:ℝ) * (ey:ℝ))) from by ring, hse2]
        _ < Real.sqrt ((x:ℝ) ^ 2 + (y:ℝ) ^ 2) * Real.sqrt ((x:ℝ) ^ 2 + (y:ℝ) ^ 2) := h2
        _ = (x:ℝ) ^ 2 + (y:ℝ) ^ 2 := hrs
    have h4 : (x ^ 2 + y ^ 2 : ℚ) > R ^ 2 * (ex * ey) := by
      have : ((R ^ 2 * (ex * ey) : ℚ) : ℝ) < ((x ^ 2 + y ^ 2 : ℚ) : ℝ) := by
        push_cast
        calc (R:ℝ) ^ 2 * ((ex:ℝ) * (ey:ℝ)) = (R:ℝ) * (R:ℝ) * ((ex:ℝ) * (ey:ℝ)) := by ring
          _ < (x:ℝ) ^ 2 + (y:ℝ) ^ 2 := h3
      exact_mod_cast this
    exact h4

/-- C2: a grid node whose position has radius `sqrt(x^2 + y^2)` below
`innerRinMm / extFr` or above `outerRinMm * extFr` (with
`extFr = sqrt(extFx * extFy)`) is emitted as the zero 4-tuple, whatever the
interpolated surface data `Ff` is. -/
theorem gridNode_zero_outside (Ff : ℚ → ℚ → ℚ) (Ri R : ℚ) (nx ny jj ii : ℕ)
    (hnx : 2 ≤ nx) (hny : 2 ≤ ny) (hR : 0 ≤ R)
    (hout : Real.sqrt ((xpos R nx ii : ℝ) ^ 2 + (ypos R ny jj : ℝ) ^ 2)
          < (Ri:ℝ) / Real.sqrt ((extFx nx : ℝ) * (extFy ny : ℝ))
        ∨ Real.sqrt ((xpos R nx ii : ℝ) ^ 2 + (ypos R ny jj : ℝ) ^ 2)
          > (R:ℝ) * Real.sqrt ((extFx nx : ℝ) * (extFy ny : ℝ))) :
    gridNode Ff Ri R nx ny jj ii = (0, 0, 0, 0) := by
  have hb := outsideAnnulus_of_sqrt Ri R (extFx nx) (extFy ny)
    (xpos R nx ii) (ypos R ny jj) hR (extFx_pos nx hnx) (extFy_pos ny hny) hout
  simp [gridNode, hb]

/-- Witness for C2: for `nx = ny = 2`, `Ri = 100`, `R = 1`, the node at
`jj = ii = 2` sits at `(-1, 1)`, radius `sqrt 2`, inside the inflated inner
hole `100 / sqrt 25 = 20`, so it is zero-filled even though the surface value
is the constant 1. -/
theorem gridNode_zero_outside_witness :
    gridNode (fun _ _ => (1:ℚ)) 100 1 2 2 2 2 = (0, 0, 0, 0) := by
  apply gridNode_zero_outside (fun _ _ => (1:ℚ)) 100 1 2 2 2 2 le_rfl le_rfl
    (by norm_num)
  left
  have hx : xpos 1 2 2 = -1 := by
    norm_num [xpos, minx, delx, extFx, NUM_X_PIXELS]
  have hy : ypos 1 2 2 = 1 := by
    norm_num [ypos, miny, dely, extFy, NUM_Y_PIXELS]
  have hex : extFx 2 = 5 := by norm_num [extFx, NUM_X_PIXELS]
  have hey : extFy 2 = 5 := by norm_num [extFy, NUM_Y_PIXELS]
  rw [hx, hy, hex, hey]
  have h25 : Real.sqrt (((5:ℚ):ℝ) * ((5:ℚ):ℝ)) = 5 := by
    rw [show (((5:ℚ):ℝ) * ((5:ℚ):ℝ)) = 5 ^ 2 by push_cast; norm_num,
      Real.sqrt_sq (by norm_num : (0:ℝ) ≤ 5)]
  rw [h25]
  have harg : (((-1:ℚ)):ℝ) ^ 2 + (((1:ℚ)):ℝ) ^ 2 = 2 := by push_cast; norm_num
  rw [harg]
  have h20 : ((100:ℚ):ℝ) / 5 = 20 := by push_cast; norm_num
  rw [h20]
  exact (Real.sqrt_lt' (by norm_num : (0:ℝ) < 20)).mpr (by norm_num)

/-- C8: the grid resampler content is one header line followed by exactly
`(nx + 4) * (ny + 4)` node lines; the header carries the inflated pixel
counts `nx + 4`, `ny + 4` and the pitches `2 * R * extFx / (nx + 3)`,
`2 * R * extFy / (ny + 3)` with `extFx = (nx + 3) / (nx - 1)` and
`extFy = (ny + 3) / (ny - 1)`; and the grid origin centers the inflated
extent on zero: `minx = -0.5 * (NUM_X_PIXELS - 1) * delx` and symmetrically
for y. -/
theorem gridContent_format (Ff : ℚ → ℚ → ℚ) (Ri R : ℚ) (nx ny : ℕ) :
    (gridContent Ff Ri R nx ny).length = 1 + (nx + 4) * (ny + 4)
  ∧ (gridContent Ff Ri R nx ny).head? =
      some (ZemaxLine.header (nx + 4) (ny + 4)
        (2 * R * (((nx:ℚ) + 3) / ((nx:ℚ) - 1)) / ((nx:ℚ) + 3))
        (2 * R * (((ny:ℚ) + 3) / ((ny:ℚ) - 1)) / ((ny:ℚ) + 3)))
  ∧ (∀ l ∈ (gridContent Ff Ri R nx ny).tail,
      ∃ z dx dy dxdy, l = ZemaxLine.node z dx dy dxdy)
  ∧ minx R nx = -(1/2) * ((NUM_X_PIXELS nx : ℚ) - 1) * delx R nx
  ∧ miny R ny = -(1/2) * ((NUM_Y_PIXELS ny : ℚ) - 1) * dely R ny := by
  refine ⟨?_, ?_, ?_, rfl, rfl⟩
  · simp only [gridContent, List.length_cons, List.length_flatten, List.map_map]
    have : ((List.range (NUM_X_PIXELS nx)).map (fun _ => NUM_Y_PIXELS ny)).sum
        = NUM_X_PIXELS nx * NUM_Y_PIXELS ny := by
      simp [List.map_const', List.sum_replicate, smul_eq_mul]
    simp only [Function.comp_def, List.length_map, List.length_range] at *
    rw [this, NUM_X_PIXELS, NUM_Y_PIXELS]
    omega
  · simp only [gridContent, List.head?_cons, Option.some.injEq, ZemaxLine.header.injEq]
    refine ⟨rfl, rfl, ?_, ?_⟩
    · rw [delx, extFx, NUM_X_PIXELS]
      push_cast
      ring
    · rw [dely, extFy, NUM_Y_PIXELS]
      push_cast
      ring
  · intro l hl
    simp only [gridContent, List.tail_cons, List.mem_flatten, List.mem_map] at hl
    obtain ⟨inner, ⟨jj, _, rfl⟩, hmem⟩ := hl
    simp only [List.mem_map] at hmem
    obtain ⟨ii, _, rfl⟩ := hmem
    exact ⟨_, _, _, _, rfl⟩

/-- C9: the resampler's outer loop runs `nx + 4` times advancing the
y coordinate while the inner loop runs `ny + 4` times advancing the
x coordinate; hence the x axis is sampled at `ny + 4` positions with pitch
`delx`, the y axis at `nx + 4` positions, and for `nx ≠ ny` the last sampled
x position differs from the maximum `-minx` of the inflated x extent the
header announces. -/
theorem gridSamp_axis_swap (Ff : ℚ → ℚ → ℚ) (Ri R : ℚ) (nx ny : ℕ)
    (hnx : 2 ≤ nx) (hny : 2 ≤ ny) (hR : 0 < R) (hne : nx ≠ ny) :
    ((gridContent Ff Ri R nx ny).tail =
        ((List.range (nx + 4)).map (fun jj =>
          (List.range (ny + 4)).map (fun ii =>
            let t := gridNode Ff Ri R nx ny jj ii
            ZemaxLine.node t.1 t.2.1 t.2.2.1 t.2.2.2))).flatten)
  ∧ (xSamples R nx ny).length = ny + 4
  ∧ (ySamples R nx ny).length = nx + 4
  ∧ (∀ k, k + 1 < (xSamples R nx ny).length →
      (xSamples R nx ny).getD (k + 1) 0 - (xSamples R nx ny).getD k 0 = delx R nx)
  ∧ (xSamples R nx ny).getLast? ≠ some (-(minx R nx)) := by
  refine ⟨rfl, by simp [xSamples, NUM_Y_PIXELS], by simp [ySamples, NUM_X_PIXELS],
    ?_, ?_⟩
  · intro k hk
    simp only [xSamples, List.length_map, List.length_range, NUM_Y_PIXELS] at hk
    rw [List.getD_eq_getElem _ 0 (by simp [xSamples, NUM_Y_PIXELS]; omega),
      List.getD_eq_getElem _ 0 (by simp [xSamples, NUM_Y_PIXELS]; omega)]
    simp only [xSamples, List.getElem_map, List.getElem_range]
    rw [xpos, xpos]
    push_cast
    ring
  · have hlast : (xSamples R nx ny).getLast? = some (xpos R nx (ny + 3)) := by
      rw [xSamples, List.getLast?_eq_getElem?,
        List.getElem?_eq_getElem (by simp [NUM_Y_PIXELS])]
      simp only [List.getElem_map, List.getElem_range, List.length_map,
        List.length_range, Option.some.injEq]
      rw [show NUM_Y_PIXELS ny - 1 = ny + 3 from by rw [NUM_Y_PIXELS]; omega]
    rw [hlast]
    intro hcon
    have heq : xpos R nx (ny + 3) = -(minx R nx) := Option.some.inj hcon
    have hdx := delx_pos R nx hR hnx
    have hxm : xpos R nx (ny + 3) - (-(minx R nx))
        = ((ny:ℚ) - (nx:ℚ)) * delx R nx := by
      rw [xpos, minx, NUM_X_PIXELS]
      push_cast
      ring
    rw [heq] at hxm
    have hzero : ((ny:ℚ) - (nx:ℚ)) * delx R nx = 0 := by
      rw [← hxm]
      ring
    rcases mul_eq_zero.mp hzero with h0 | h0
    · have : (ny:ℚ) = (nx:ℚ) := by linarith [sub_eq_zero.mp h0]
      exact hne (by exact_mod_cast this.symm)
    · exact absurd h0 (ne_of_gt hdx)

/-- Witness for C9 at `nx = 2`, `ny = 3`, `R = 1`: the last sampled x
position is not the header-implied maximum `-minx`. -/
theorem gridSamp_axis_swap_witness :
    (xSamples 1 2 3).getLast? ≠ some (-(minx 1 2)) :=
  (gridSamp_axis_swap (fun _ _ => 0) 0 1 2 3 (by norm_num) (by norm_num)
    (by norm_num) (by norm_num)).2.2.2.2

/-- C10: the content returned by the grid resampler does not depend on
`resFile`; with `resFile = None` no write is performed, and with a path the
single write carries the entire assembled content. -/
theorem gridSamp_resFile_frame (Ff : ℚ → ℚ → ℚ) (Ri R : ℚ) (nx ny : ℕ)
    (p : String) :
    (gridSampInMnInZemax Ff Ri R nx ny none).1
      = (gridSampInMnInZemax Ff Ri R nx ny (some p)).1
  ∧ (gridSampInMnInZemax Ff Ri R nx ny none).2 = []
  ∧ (gridSampInMnInZemax Ff Ri R nx ny (some p)).2 =
      [(p, (gridSampInMnInZemax Ff Ri R nx ny (some p)).1)] :=
  ⟨rfl, rfl, rfl⟩

theorem ZernikeEval_append_zero (B : ℕ → ℚ × ℚ → ℚ) (l : List ℚ) (p : ℚ × ℚ) :
    ZernikeEval B (l ++ [0]) p = ZernikeEval B l p := by
  rw [ZernikeEval, ZernikeEval, List.length_append, List.length_singleton,
    List.range_succ, List.map_append, List.sum_append]
  simp only [List.map_cons, List.map_nil, List.sum_cons, List.sum_nil]
  have h1 : (l ++ [0]).getD l.length 0 = 0 := by
    rw [List.getD_eq_getElem _ 0 (by simp)]
    simp
  rw [h1, zero_mul, add_zero, add_zero]
  congr 1
  apply List.map_congr_left
  intro j hj
  rw [List.getD_append _ _ _ _ (List.mem_range.mp hj)]

theorem ZernikeEval_pad (B : ℕ → ℚ × ℚ → ℚ) (zc : List ℚ) (k : ℕ) (p : ℚ × ℚ) :
    ZernikeEval B (zc ++ List.replicate k 0) p = ZernikeEval B zc p := by
  induction k with
  | zero => simp
  | succ k ih =>
      rw [List.replicate_succ' k 0, ← List.append_assoc, ZernikeEval_append_zero, ih]

theorem resEnergy_pad (B : ℕ → ℚ × ℚ → ℚ) (surf : List ℚ) (pts : List (ℚ × ℚ))
    (zc : List ℚ) (k : ℕ) :
    resEnergy B surf pts (zc ++ List.replicate k 0) = resEnergy B surf pts zc := by
  have hf : (fun (s : ℚ) (p : ℚ × ℚ) => s - ZernikeEval B (zc ++ List.replicate k 0) p)
      = fun s p => s - ZernikeEval B zc p := by
    funext s p
    rw [ZernikeEval_pad]
  rw [resEnergy, resEnergy, fitResidual, fitResidual, hf]

/-- C3: residual energy of the aberration fit is monotone non-increasing in
the number of fitted terms: for the same surface field, sample points and
basis family, any least-squares fit with `n2 ≥ n1` terms leaves at most the
residual energy of any least-squares fit with `n1` terms. -/
theorem resEnergy_mono (B : ℕ → ℚ × ℚ → ℚ) (surf : List ℚ) (pts : List (ℚ × ℚ))
    (n1 n2 : ℕ) (zc1 zc2 : List ℚ) (hn : n1 ≤ n2)
    (h1 : IsZernikeFit B surf pts n1 zc1) (h2 : IsZernikeFit B surf pts n2 zc2) :
    resEnergy B surf pts zc2 ≤ resEnergy B surf pts zc1 := by
  have hlen : (zc1 ++ List.replicate (n2 - n1) 0).length = n2 := by
    simp only [List.length_append, List.length_replicate, h1.1]
    omega
  calc resEnergy B surf pts zc2
      ≤ resEnergy B surf pts (zc1 ++ List.replicate (n2 - n1) 0) := h2.2 _ hlen
    _ = resEnergy B surf pts zc1 := resEnergy_pad B surf pts zc1 (n2 - n1)

/-- Witness for C3 at a concrete field, point set and basis, with
`n1 = n2 = 0` and the empty coefficient lists, which are least-squares fits
of order 0. -/
theorem resEnergy_mono_witness :
    resEnergy (fun _ _ => (0:ℚ)) [1] [(0, 0)] [] ≤
      resEnergy (fun _ _ => (0:ℚ)) [1] [(0, 0)] [] :=
  resEnergy_mono (fun _ _ => (0:ℚ)) [1] [(0, 0)] 0 0 [] [] le_rfl
    ⟨rfl, fun c hc => le_of_eq (by rw [List.length_eq_zero.mp hc])⟩
    ⟨rfl, fun c hc => le_of_eq (by rw [List.length_eq_zero.mp hc])⟩

/-- C7 counterexample: with the non-positive order `numTerms = 0` and basis
maximum 28, the pipeline still runs the bending-mode data load and the
coordinate transform; it is false that the configuration error is reported
with no numeric stage executed, because the only place the order can be
rejected is the fitting call, which the source reaches last. -/
theorem getMirrorRes_numTerms_cex :
    ¬ ((getMirrorResInMmInZemax 0 28).2 = some .configuration
        ∧ (getMirrorResInMmInZemax 0 28).1 = []) := by
  decide

/-- C7 amended: a fit order that is non-positive or exceeds the supported
maximum is rejected with a configuration error, but only by the fitting
stage, after the data load and the coordinate transform have already run. -/
theorem getMirrorRes_numTerms_invalid (numTerms maxTerms : ℤ)
    (h : numTerms ≤ 0 ∨ maxTerms < numTerms) :
    getMirrorResInMmInZemax numTerms maxTerms
      = ([.loadData, .coordTransform], some .configuration) := by
  have hb : numTermsValid numTerms maxTerms = false := by
    rw [numTermsValid, Bool.and_eq_false_iff]
    rcases h with h | h
    · exact Or.inl (decide_eq_false (not_lt.mpr h))
    · exact Or.inr (decide_eq_false (not_le.mpr h))
  simp [getMirrorResInMmInZemax, hb]

/-- Witness for the amended C7 at `numTerms = 0`, `maxTerms = 28`. -/
theorem getMirrorRes_numTerms_invalid_witness :
    getMirrorResInMmInZemax 0 28
      = ([.loadData, .coordTransform], some .configuration) :=
  getMirrorRes_numTerms_invalid 0 28 (Or.inl le_rfl)

end WepPhoSim
